import Mathlib

set_option maxHeartbeats 1000000
set_option maxRecDepth 4000

namespace Tar

/-!
Shallow embedding of `src/src/list.ts` (the concatenation of the tar `list`
command, the tar `replace` command, and the legacy `Entry` stream class).

Bytes are `Nat`, file contents `List Nat`.  `fs.readSync` / `fs.read` on a
regular file are modelled as returning every requested byte that exists
(`min count (size - pos)`), so the header-fill loops of the append scan reduce
to: a full 512-byte block whenever at least 512 bytes remain at the position,
otherwise a short read (the next read returns 0 bytes) which terminates the
scan.
-/

/-- Result of `new Header(headBuf)`.  `header.js` is not part of the sources
under verification, so the append scan is modelled and proved for an arbitrary
decoder producing the fields the scan consumes: `cksumValid`, `size`, `mtime`
(an absent mtime models a falsy `h.mtime`) and `path`. -/
structure HeaderInfo where
  cksumValid : Bool
  size : Option Nat
  mtime : Option Nat
  path : String

/-- A header decoder: from the 512 bytes of a header block to the decoded
fields. -/
def Decoder : Type := List Nat → HeaderInfo

/-- The 512-byte header block read at `pos`: file bytes, zero-filled past end
of file (`Buffer.alloc(512)` zero-initializes; the stale tail of a reused
buffer is never parsed, because a short read stops the scan before
`new Header(headBuf)` runs). -/
def blockAt (file : List Nat) (pos : Nat) : List Nat :=
  (List.range 512).map fun i => file.getD (pos + i) 0

/-- Message of the error thrown on gzip magic bytes at position 0. -/
def gzipMsg : String := "cannot append to compressed archives"

/-- Computation `512 * Math.ceil((h.size || 0) / 512)` from `replaceSync`; the
async scan's `h.size ?? 0` agrees with `||` on `undefined` and on `0`. -/
def entryBlockSize (h : HeaderInfo) : Nat := 512 * ((h.size.getD 0 + 511) / 512)

/-- The `opt.mtimeCache.set(String(h.path), h.mtime)` calls performed when
advancing past a header: one recording when a cache was supplied
(`mtimeOn`) and the header carries an mtime, none otherwise. -/
def recOf (mtimeOn : Bool) (h : HeaderInfo) : List (String × Nat) :=
  if mtimeOn then
    match h.mtime with
    | some mt => [(h.path, mt)]
    | none => []
  else []

/-- Gzip-magic test performed while `position === 0`: after the first read,
`headBuf[0]` and `headBuf[1]` hold the first two file bytes (zero past end of
file). -/
def gzCond (file : List Nat) (pos : Nat) : Prop :=
  pos = 0 ∧ file.getD 0 0 = 0x1f ∧ file.getD 1 0 = 0x8b

instance (file : List Nat) (pos : Nat) : Decidable (gzCond file pos) := by
  unfold gzCond; infer_instance

/-- The `POSITION:` loop of `replaceSync` (src/src/list.ts, lines 167-208),
started at `pos`.  Returns the final append offset together with the sequence
of mtime-cache recordings made on the way, or the gzip failure.
Branches, in source order: the loop condition `position < st.size`; the
gzip-magic check performed after each read while `position === 0`;
`break POSITION` when a read returns no bytes before the block is complete;
`break` on an invalid checksum (`const h = new Header(headBuf)` is inlined as
`d (blockAt file pos)`); `break` when
`position + entryBlockSize + 512 > st.size`; otherwise record the mtime and
advance by `entryBlockSize` plus the loop increment `512`. -/
def replaceSyncScan (d : Decoder) (mtimeOn : Bool) (file : List Nat) (pos : Nat) :
    Except String (Nat × List (String × Nat)) :=
  if pos < file.length then
    if gzCond file pos then
      .error gzipMsg
    else if file.length - pos < 512 then
      .ok (pos, [])
    else if (d (blockAt file pos)).cksumValid = false then
      .ok (pos, [])
    else if file.length < pos + entryBlockSize (d (blockAt file pos)) + 512 then
      .ok (pos, [])
    else
      (replaceSyncScan d mtimeOn file
          (pos + entryBlockSize (d (blockAt file pos)) + 512)).map
        fun pr => (pr.1, recOf mtimeOn (d (blockAt file pos)) ++ pr.2)
  else .ok (pos, [])
termination_by file.length - pos
decreasing_by simp_wf; omega

/-- The `onread` state machine of `getPos` inside `replaceAsync`
(src/src/list.ts, lines 243-315), resumed at `pos` (a 512-byte read at `pos`
has been issued).  Branches, in source order: the gzip-magic check while
`position === 0`; the truncated-header return when fewer than 512 bytes were
accumulated; the invalid-checksum return; the insufficient-room return; the
advance `position += entryBlockSize + 512` followed by the early
`position >= size` return, which skips the mtime recording; otherwise the
mtime recording and the next read. -/
def getPosScan (d : Decoder) (mtimeOn : Bool) (file : List Nat) (pos : Nat) :
    Except String (Nat × List (String × Nat)) :=
  if gzCond file pos then
    .error gzipMsg
  else if file.length - pos < 512 then
    .ok (pos, [])
  else if (d (blockAt file pos)).cksumValid = false then
    .ok (pos, [])
  else if file.length < pos + entryBlockSize (d (blockAt file pos)) + 512 then
    .ok (pos, [])
  else if file.length ≤ pos + entryBlockSize (d (blockAt file pos)) + 512 then
    .ok (pos + entryBlockSize (d (blockAt file pos)) + 512, [])
  else
    (getPosScan d mtimeOn file
        (pos + entryBlockSize (d (blockAt file pos)) + 512)).map
      fun pr => (pr.1, recOf mtimeOn (d (blockAt file pos)) ++ pr.2)
termination_by file.length - pos
decreasing_by simp_wf; omega

/-- Top of the `replaceSync` scan: it starts at position 0. -/
def replaceSyncPos (d : Decoder) (mtimeOn : Bool) (file : List Nat) :
    Except String (Nat × List (String × Nat)) :=
  replaceSyncScan d mtimeOn file 0

/-- Top of `getPos`: `size === 0` returns position 0 immediately, otherwise
the first read is issued at position 0. -/
def getPos (d : Decoder) (mtimeOn : Bool) (file : List Nat) :
    Except String (Nat × List (String × Nat)) :=
  if file.length = 0 then .ok (0, []) else getPosScan d mtimeOn file 0

lemma replaceSyncScan_stop (d : Decoder) (m : Bool) (file : List Nat) (pos : Nat)
    (h : ¬ pos < file.length) : replaceSyncScan d m file pos = .ok (pos, []) := by
  rw [replaceSyncScan.eq_def, if_neg h]

lemma replaceSyncScan_gzip (d : Decoder) (m : Bool) (file : List Nat) (pos : Nat)
    (hlt : pos < file.length) (h0 : gzCond file pos) :
    replaceSyncScan d m file pos = .error gzipMsg := by
  rw [replaceSyncScan.eq_def, if_pos hlt, if_pos h0]

lemma replaceSyncScan_short (d : Decoder) (m : Bool) (file : List Nat) (pos : Nat)
    (hlt : pos < file.length) (h0 : ¬ gzCond file pos)
    (hsh : file.length - pos < 512) :
    replaceSyncScan d m file pos = .ok (pos, []) := by
  rw [replaceSyncScan.eq_def, if_pos hlt, if_neg h0, if_pos hsh]

lemma replaceSyncScan_badck (d : Decoder) (m : Bool) (file : List Nat) (pos : Nat)
    (hlt : pos < file.length) (h0 : ¬ gzCond file pos)
    (hsh : ¬ file.length - pos < 512)
    (hck : (d (blockAt file pos)).cksumValid = false) :
    replaceSyncScan d m file pos = .ok (pos, []) := by
  rw [replaceSyncScan.eq_def, if_pos hlt, if_neg h0, if_neg hsh, if_pos hck]

lemma replaceSyncScan_noroom (d : Decoder) (m : Bool) (file : List Nat) (pos : Nat)
    (hlt : pos < file.length) (h0 : ¬ gzCond file pos)
    (hsh : ¬ file.length - pos < 512)
    (hck : ¬ (d (blockAt file pos)).cksumValid = false)
    (hro : file.length < pos + entryBlockSize (d (blockAt file pos)) + 512) :
    replaceSyncScan d m file pos = .ok (pos, []) := by
  rw [replaceSyncScan.eq_def, if_pos hlt, if_neg h0, if_neg hsh, if_neg hck,
    if_pos hro]

lemma replaceSyncScan_adv (d : Decoder) (m : Bool) (file : List Nat) (pos : Nat)
    (hlt : pos < file.length) (h0 : ¬ gzCond file pos)
    (hsh : ¬ file.length - pos < 512)
    (hck : ¬ (d (blockAt file pos)).cksumValid = false)
    (hro : ¬ file.length < pos + entryBlockSize (d (blockAt file pos)) + 512) :
    replaceSyncScan d m file pos =
      (replaceSyncScan d m file
          (pos + entryBlockSize (d (blockAt file pos)) + 512)).map
        fun pr => (pr.1, recOf m (d (blockAt file pos)) ++ pr.2) := by
  rw [replaceSyncScan.eq_def, if_pos hlt, if_neg h0, if_neg hsh, if_neg hck,
    if_neg hro]

lemma getPosScan_gzip (d : Decoder) (m : Bool) (file : List Nat) (pos : Nat)
    (h0 : gzCond file pos) : getPosScan d m file pos = .error gzipMsg := by
  rw [getPosScan.eq_def, if_pos h0]

lemma getPosScan_short (d : Decoder) (m : Bool) (file : List Nat) (pos : Nat)
    (h0 : ¬ gzCond file pos) (hsh : file.length - pos < 512) :
    getPosScan d m file pos = .ok (pos, []) := by
  rw [getPosScan.eq_def, if_neg h0, if_pos hsh]

lemma getPosScan_badck (d : Decoder) (m : Bool) (file : List Nat) (pos : Nat)
    (h0 : ¬ gzCond file pos) (hsh : ¬ file.length - pos < 512)
    (hck : (d (blockAt file pos)).cksumValid = false) :
    getPosScan d m file pos = .ok (pos, []) := by
  rw [getPosScan.eq_def, if_neg h0, if_neg hsh, if_pos hck]

lemma getPosScan_noroom (d : Decoder) (m : Bool) (file : List Nat) (pos : Nat)
    (h0 : ¬ gzCond file pos) (hsh : ¬ file.length - pos < 512)
    (hck : ¬ (d (blockAt file pos)).cksumValid = false)
    (hro : file.length < pos + entryBlockSize (d (blockAt file pos)) + 512) :
    getPosScan d m file pos = .ok (pos, []) := by
  rw [getPosScan.eq_def, if_neg h0, if_neg hsh, if_neg hck, if_pos hro]

lemma getPosScan_atEnd (d : Decoder) (m : Bool) (file : List Nat) (pos : Nat)
    (h0 : ¬ gzCond file pos) (hsh : ¬ file.length - pos < 512)
    (hck : ¬ (d (blockAt file pos)).cksumValid = false)
    (hro : ¬ file.length < pos + entryBlockSize (d (blockAt file pos)) + 512)
    (hend : file.length ≤ pos + entryBlockSize (d (blockAt file pos)) + 512) :
    getPosScan d m file pos =
      .ok (pos + entryBlockSize (d (blockAt file pos)) + 512, []) := by
  rw [getPosScan.eq_def, if_neg h0, if_neg hsh, if_neg hck, if_neg hro,
    if_pos hend]

lemma getPosScan_adv (d : Decoder) (m : Bool) (file : List Nat) (pos : Nat)
    (h0 : ¬ gzCond file pos) (hsh : ¬ file.length - pos < 512)
    (hck : ¬ (d (blockAt file pos)).cksumValid = false)
    (hro : ¬ file.length < pos + entryBlockSize (d (blockAt file pos)) + 512)
    (hend : ¬ file.length ≤ pos + entryBlockSize (d (blockAt file pos)) + 512) :
    getPosScan d m file pos =
      (getPosScan d m file
          (pos + entryBlockSize (d (blockAt file pos)) + 512)).map
        fun pr => (pr.1, recOf m (d (blockAt file pos)) ++ pr.2) := by
  rw [getPosScan.eq_def, if_neg h0, if_neg hsh, if_neg hck, if_neg hro,
    if_neg hend]

/-- Relation between a sync scan result and an async scan result: identical
failures, or identical offsets with the async recordings an initial segment of
the sync recordings missing at most the final one. -/
def ScanRel (a b : Except String (Nat × List (String × Nat))) : Prop :=
  (∃ e, a = .error e ∧ b = .error e) ∨
    (∃ o ra rb t, a = .ok (o, ra) ∧ b = .ok (o, rb) ∧ ra = rb ++ t ∧
      t.length ≤ 1)

lemma scanRel_ok_same (o : Nat) (rs : List (String × Nat)) :
    ScanRel (.ok (o, rs)) (.ok (o, rs)) :=
  Or.inr ⟨o, rs, rs, [], rfl, rfl, by simp, by simp⟩

lemma recOf_length_le (m : Bool) (h : HeaderInfo) : (recOf m h).length ≤ 1 := by
  unfold recOf
  split
  · split <;> simp
  · simp

lemma gzCond_not_of_ge (file : List Nat) (pos : Nat) (h : file.length ≤ pos)
    (hp : pos = 0) : ¬ gzCond file pos := by
  intro hgz
  have hlen : file.length = 0 := by omega
  have : file = [] := List.length_eq_zero.mp hlen
  rcases hgz with ⟨-, h1, -⟩
  simp [this] at h1

lemma scanRel_aux (d : Decoder) (m : Bool) (file : List Nat) :
    ∀ (n pos : Nat), file.length - pos ≤ n →
      ScanRel (replaceSyncScan d m file pos) (getPosScan d m file pos) := by
  intro n
  induction n with
  | zero =>
    intro pos hpos
    have hge : file.length ≤ pos := by omega
    have h1 : ¬ pos < file.length := by omega
    have h0 : ¬ gzCond file pos := by
      intro hgz
      exact gzCond_not_of_ge file pos hge hgz.1 hgz
    rw [replaceSyncScan_stop d m file pos h1,
      getPosScan_short d m file pos h0 (by omega)]
    exact scanRel_ok_same pos []
  | succ k ih =>
    intro pos hpos
    by_cases hlt : pos < file.length
    case neg =>
      have hge : file.length ≤ pos := by omega
      have h0 : ¬ gzCond file pos := by
        intro hgz
        exact gzCond_not_of_ge file pos hge hgz.1 hgz
      rw [replaceSyncScan_stop d m file pos hlt,
        getPosScan_short d m file pos h0 (by omega)]
      exact scanRel_ok_same pos []
    case pos =>
      by_cases h0 : gzCond file pos
      · rw [replaceSyncScan_gzip d m file pos hlt h0,
          getPosScan_gzip d m file pos h0]
        exact Or.inl ⟨gzipMsg, rfl, rfl⟩
      · by_cases hsh : file.length - pos < 512
        · rw [replaceSyncScan_short d m file pos hlt h0 hsh,
            getPosScan_short d m file pos h0 hsh]
          exact scanRel_ok_same pos []
        · by_cases hck : (d (blockAt file pos)).cksumValid = false
          · rw [replaceSyncScan_badck d m file pos hlt h0 hsh hck,
              getPosScan_badck d m file pos h0 hsh hck]
            exact scanRel_ok_same pos []
          · by_cases hro :
                file.length < pos + entryBlockSize (d (blockAt file pos)) + 512
            · rw [replaceSyncScan_noroom d m file pos hlt h0 hsh hck hro,
                getPosScan_noroom d m file pos h0 hsh hck hro]
              exact scanRel_ok_same pos []
            · by_cases hend :
                  file.length ≤ pos + entryBlockSize (d (blockAt file pos)) + 512
              · rw [getPosScan_atEnd d m file pos h0 hsh hck hro hend,
                  replaceSyncScan_adv d m file pos hlt h0 hsh hck hro,
                  replaceSyncScan_stop d m file
                    (pos + entryBlockSize (d (blockAt file pos)) + 512)
                    (by omega)]
                exact Or.inr
                  ⟨pos + entryBlockSize (d (blockAt file pos)) + 512,
                    recOf m (d (blockAt file pos)) ++ [], [],
                    recOf m (d (blockAt file pos)) ++ [], rfl, rfl, by simp,
                    by simpa using recOf_length_le m (d (blockAt file pos))⟩
              · rw [replaceSyncScan_adv d m file pos hlt h0 hsh hck hro,
                  getPosScan_adv d m file pos h0 hsh hck hro hend]
                have hrec :
                    file.length -
                      (pos + entryBlockSize (d (blockAt file pos)) + 512) ≤ k :=
                  by omega
                rcases ih (pos + entryBlockSize (d (blockAt file pos)) + 512)
                    hrec with
                  ⟨e, hs, ha⟩ | ⟨o, ra, rb, t, hs, ha, hab, htl⟩
                · rw [hs, ha]
                  exact Or.inl ⟨e, rfl, rfl⟩
                · rw [hs, ha]
                  exact Or.inr
                    ⟨o, recOf m (d (blockAt file pos)) ++ ra,
                      recOf m (d (blockAt file pos)) ++ rb, t, rfl, rfl,
                      by rw [hab, List.append_assoc], htl⟩

lemma scanRel_top (d : Decoder) (m : Bool) (file : List Nat) :
    ScanRel (replaceSyncPos d m file) (getPos d m file) := by
  unfold replaceSyncPos getPos
  by_cases hz : file.length = 0
  · rw [if_pos hz, replaceSyncScan_stop d m file 0 (by omega)]
    exact scanRel_ok_same 0 []
  · rw [if_neg hz]
    exact scanRel_aux d m file file.length 0 (by omega)

lemma get?_lt_length (l : List Nat) (n a : Nat) (h : l.get? n = some a) :
    n < l.length := by
  by_contra hc
  rw [List.get?_eq_none.mpr (by omega)] at h
  exact absurd h (by simp)

lemma getD_of_get? (l : List Nat) (n a : Nat) (h : l.get? n = some a) :
    l.getD n 0 = a := by
  simp [List.getD_eq_getElem?_getD, ← List.get?_eq_getElem?, h]

/-- C1: for every byte content, every file length and every header decoding,
the blocking append scan (replaceSync) and the cooperative-suspension append
scan (getPos inside replaceAsync) compute the same append offset: equal
offsets whenever both complete, and identical failures otherwise. -/
theorem sync_async_append_offset_eq (d : Decoder) (m : Bool) (file : List Nat) :
    (replaceSyncPos d m file).map Prod.fst = (getPos d m file).map Prod.fst := by
  rcases scanRel_top d m file with ⟨e, hs, ha⟩ | ⟨o, ra, rb, t, hs, ha, -, -⟩
  · rw [hs, ha]
  · rw [hs, ha]; rfl

/-- Decoder used for concrete scan evaluations: every block decodes as a
checksum-valid header of size 0, mtime 42 and path "f". -/
def d0 : Decoder := fun _ => ⟨true, some 0, some 42, "f"⟩

/-- A 512-byte file: exactly one (d0-decoded) header block and nothing else. -/
def file0 : List Nat := List.replicate 512 0

lemma sync_eval_d0 : replaceSyncPos d0 true file0 = .ok (512, [("f", 42)]) := by
  unfold replaceSyncPos
  rw [replaceSyncScan_adv d0 true file0 0 (by decide) (by decide) (by decide)
    (by decide) (by decide)]
  rw [show 0 + entryBlockSize (d0 (blockAt file0 0)) + 512 = 512 from by decide]
  rw [replaceSyncScan_stop d0 true file0 512 (by decide)]
  rfl

lemma getPos_eval_d0 : getPos d0 true file0 = .ok (512, []) := by
  unfold getPos
  rw [if_neg (show ¬ file0.length = 0 from by decide)]
  rw [getPosScan_atEnd d0 true file0 0 (by decide) (by decide) (by decide)
    (by decide) (by decide)]
  rfl

/-- C2, counterexample: on a file holding exactly one checksum-valid entry
(size 0, mtime 42) and nothing after it, the blocking scan records the
entry's path-to-mtime mapping but the cooperative-suspension scan advances
past the same entry and returns without recording it, because its
`position >= size` return precedes the `mtimeCache.set` call. -/
theorem mtime_final_entry_async_skipped :
    replaceSyncPos d0 true file0 = .ok (512, [("f", 42)]) ∧
      getPos d0 true file0 = .ok (512, []) :=
  ⟨sync_eval_d0, getPos_eval_d0⟩

/-- C2, amended: in blocking mode every advanced-past entry's mapping is
recorded, including the final one; in cooperative-suspension mode the
recordings are an initial segment of the blocking mode's recordings missing
at most the final one (missing exactly when the final advance reaches the end
of the file), at the same offset. -/
theorem mtime_recordings_async_prefix_sync (d : Decoder) (m : Bool)
    (file : List Nat) (o : Nat) (ra : List (String × Nat))
    (hs : replaceSyncPos d m file = .ok (o, ra)) :
    ∃ rb t, getPos d m file = .ok (o, rb) ∧ ra = rb ++ t ∧ t.length ≤ 1 := by
  rcases scanRel_top d m file with ⟨e, hse, hae⟩ |
    ⟨o', ra', rb, t, hs', ha', hab, htl⟩
  · rw [hs] at hse
    exact absurd hse (by simp)
  · obtain ⟨ho, hra⟩ : o' = o ∧ ra' = ra := by simpa using hs'.symm.trans hs
    exact ⟨rb, t, by rw [← ho]; exact ha', by rw [← hra]; exact hab, htl⟩

/-- Witness for the amended C2 theorem at the concrete one-entry archive. -/
theorem mtime_recordings_async_prefix_sync_w :
    ∃ rb t, getPos d0 true file0 = .ok (512, rb) ∧
      [("f", 42)] = rb ++ t ∧ t.length ≤ 1 :=
  mtime_recordings_async_prefix_sync d0 true file0 512 [("f", 42)] sync_eval_d0

/-- C7: a file whose first two bytes are 0x1f 0x8b makes both the blocking
and the cooperative-suspension append scan fail with the
compressed-archive error while still at position 0, with no mtime
recordings made. -/
theorem gzip_magic_fails_both_modes (d : Decoder) (m : Bool) (file : List Nat)
    (h0 : file.get? 0 = some 0x1f) (h1 : file.get? 1 = some 0x8b) :
    replaceSyncPos d m file = .error gzipMsg ∧
      getPos d m file = .error gzipMsg := by
  have hlen : 1 < file.length := get?_lt_length file 1 0x8b h1
  have hgz : gzCond file 0 :=
    ⟨rfl, getD_of_get? file 0 0x1f h0, getD_of_get? file 1 0x8b h1⟩
  constructor
  · unfold replaceSyncPos
    rw [replaceSyncScan_gzip d m file 0 (by omega) hgz]
  · unfold getPos
    rw [if_neg (by omega), getPosScan_gzip d m file 0 hgz]

/-- Decoder rejecting every block, used in concrete witnesses. -/
def dNone : Decoder := fun _ => ⟨false, none, none, ""⟩

/-- Witness for C7 at the two-byte gzip file. -/
theorem gzip_magic_fails_both_modes_w :
    replaceSyncPos dNone false [0x1f, 0x8b] = .error gzipMsg ∧
      getPos dNone false [0x1f, 0x8b] = .error gzipMsg :=
  gzip_magic_fails_both_modes dNone false [0x1f, 0x8b] rfl rfl

/-! Metadata merge and type classifier: the `Entry` constructor and
`_setProps` (src/src/list.ts, lines 438-467 and 561-622). -/

/-- Recognized header/pax metadata fields. -/
inductive Field where
  | path | mode | uid | gid | size | mtime | cksum | type | linkpath
  | uname | gname | devmaj | devmin | ctime | atime
deriving DecidableEq, Repr

/-- A metadata value: numbers, strings, or converted absolute dates
(milliseconds). -/
inductive Value where
  | num (n : Int)
  | str (s : String)
  | date (ms : Int)
deriving DecidableEq, Repr

/-- A metadata layer: a partial assignment of values to fields (an absent
value models a JS `undefined` property). -/
def Layer : Type := Field → Option Value

/-- Modelled from the spec: `tar.fields` (tar.js is outside src/), the list
of recognized raw header fields iterated by the first `_setProps` loop; the
spec names path, type, size and mtime among the recognized fields, with
ctime/atime reaching entries only through pax layers. -/
def tarFields : List Field :=
  [.path, .mode, .uid, .gid, .size, .mtime, .cksum, .type, .linkpath,
    .uname, .gname, .devmaj, .devmin]

/-- First `_setProps` loop: starting from empty `props`, copy every defined
header value of a recognized field. -/
def propsAfterHeader (header : Layer) : Layer :=
  fun f => if f ∈ tarFields then header f else none

/-- One pass of the second `_setProps` loop: every defined value of the
overlaid layer overwrites the accumulated `props`. -/
def overlayLayer (base p : Layer) : Layer := fun f =>
  match p f with
  | some v => some v
  | none => base f

/-- The `_setProps` merge: header values first, then the global layer, then
the extended layer (`[global, extended].forEach`). -/
def mergedProps (header extended global : Layer) : Layer :=
  overlayLayer (overlayLayer (propsAfterHeader header) global) extended

/-- Fields converted to dates by `_setProps`. -/
def dateFields : List Field := [.mtime, .ctime, .atime]

/-- Conversion `new Date(props[p] * 1000)`; header and pax parsing produce
numbers for date fields, non-numeric values are left untouched by the
model. -/
def toDateVal : Value → Value
  | .num n => .date (n * 1000)
  | v => v

/-- Date pass of `_setProps`: present mtime/ctime/atime values become
absolute dates. -/
def setPropsDates (pr : Layer) : Layer := fun f =>
  if f ∈ dateFields then (pr f).map toDateVal else pr f

/-- The final `props` object built by `_setProps`. -/
def entryProps (header extended global : Layer) : Layer :=
  setPropsDates (mergedProps header extended global)

/-- The `switch (tar.types[props.type])` classifier of `_setProps`, over the
type-name lookup result (`tar.types` itself is outside src/): OldFile and
ContiguousFile become File, GNUDumpDir becomes Directory, an absent lookup
becomes Unknown, and the listed cases Link through FIFO as well as the
`default:` clause all evaluate `tar.types[props.type]`, passing the name
through unchanged. -/
def classifyType : Option String → String
  | none => "Unknown"
  | some s =>
    if s = "OldFile" ∨ s = "ContiguousFile" then "File"
    else if s = "GNUDumpDir" then "Directory"
    else s

/-- The value stored by `this._remaining = props.size` at the end of
`_setProps` (overwriting the constructor's initial 0): the merged size, or
`undefined` (`none`) when absent. -/
def entryRemaining (header extended global : Layer) : Option Value :=
  entryProps header extended global Field.size

/-- A layer defining no field. -/
def emptyLayer : Layer := fun _ => none

/-- A header layer carrying only a size of 100. -/
def hdr0 : Layer := fun f => if f = Field.size then some (.num 100) else none

/-- C9: for every recognized field the merge takes the header's value as
baseline, overwrites it with the global value when defined, then with the
extended value when defined; an undefined value at a layer inherits from the
layer below. -/
theorem merge_precedence (header extended global : Layer) (f : Field)
    (hf : f ∈ tarFields) :
    mergedProps header extended global f =
      match extended f with
      | some v => some v
      | none =>
        match global f with
        | some v => some v
        | none => header f := by
  unfold mergedProps overlayLayer propsAfterHeader
  rw [if_pos hf]

/-- Witness for C9 at a concrete header layer and the size field. -/
theorem merge_precedence_w :
    mergedProps hdr0 emptyLayer emptyLayer Field.size = some (Value.num 100) :=
  merge_precedence hdr0 emptyLayer emptyLayer Field.size (by decide)

/-- C4, counterexample: when size is absent from all three layers the
remaining-bytes value is `undefined` (`none`), not 0 — `_setProps`
unconditionally overwrites the constructor's initial 0 with `props.size`. -/
theorem remaining_absent_size_not_zero :
    entryRemaining emptyLayer emptyLayer emptyLayer = none ∧
      (none : Option Value) ≠ some (Value.num 0) :=
  ⟨rfl, by decide⟩

/-- C4, amended: the remaining-bytes counter is seeded from the merged size
field; when size is absent from all three layers it is `undefined` (absent),
not 0, because the constructor's initial 0 is overwritten by `props.size`. -/
theorem remaining_seeded_from_merged_size (header extended global : Layer) :
    entryRemaining header extended global =
        mergedProps header extended global Field.size ∧
      (header Field.size = none → global Field.size = none →
        extended Field.size = none →
        entryRemaining header extended global = none) := by
  constructor
  · unfold entryRemaining entryProps setPropsDates
    rw [if_neg (by decide : ¬ Field.size ∈ dateFields)]
  · intro hh hg he
    unfold entryRemaining entryProps setPropsDates mergedProps overlayLayer
      propsAfterHeader
    rw [if_neg (by decide : ¬ Field.size ∈ dateFields), he, hg,
      if_pos (by decide : Field.size ∈ tarFields), hh]

/-- Witness for the amended C4 theorem at the all-empty layers. -/
theorem remaining_seeded_from_merged_size_w :
    entryRemaining emptyLayer emptyLayer emptyLayer = none :=
  (remaining_seeded_from_merged_size emptyLayer emptyLayer emptyLayer).2
    rfl rfl rfl

/-- C5, counterexample: the recognized type name ExtendedHeader — not one of
the six names the claim allows to pass through — is silently passed through
unchanged by the switch's `default:` clause rather than being detected as
unhandled. -/
theorem classify_default_passthrough :
    classifyType (some "ExtendedHeader") = "ExtendedHeader" ∧
      "ExtendedHeader" ∉ ["Link", "SymbolicLink", "CharacterDevice",
        "BlockDevice", "Directory", "FIFO"] :=
  ⟨by decide, by decide⟩

/-- C5, amended: the classifier is total; OldFile and ContiguousFile map to
File, GNUDumpDir to Directory, an absent/unrecognized lookup to Unknown, and
every other type name — the six listed ones and any other recognized name —
is passed through unchanged by the explicit `default:` clause, so an
unhandled recognized flag surfaces as its raw name rather than being
detected. -/
theorem classify_characterization :
    classifyType none = "Unknown" ∧
      classifyType (some "OldFile") = "File" ∧
      classifyType (some "ContiguousFile") = "File" ∧
      classifyType (some "GNUDumpDir") = "Directory" ∧
      ∀ s : String, s ≠ "OldFile" → s ≠ "ContiguousFile" → s ≠ "GNUDumpDir" →
        classifyType (some s) = s := by
  refine ⟨rfl, by decide, by decide, by decide, ?_⟩
  intro s h1 h2 h3
  show (if s = "OldFile" ∨ s = "ContiguousFile" then "File"
    else if s = "GNUDumpDir" then "Directory" else s) = s
  rw [if_neg (by tauto), if_neg h3]

/-- Witness for the amended C5 theorem at the Link name. -/
theorem classify_characterization_w : classifyType (some "Link") = "Link" :=
  classify_characterization.2.2.2.2 "Link" (by decide) (by decide) (by decide)

/-! Eager validation of the `replace` command (src/src/list.ts,
lines 394-423). -/

/-- Options consumed by the `replace` validation. -/
structure ReplaceOpt where
  file : Option String
  gzip : Bool
  brotli : Bool

/-- Modelled from the spec: `isFile` from options.ts (outside src/) — the
destination path is configured; by JS truthiness a missing or empty `file`
is not. -/
def isFile (o : ReplaceOpt) : Bool :=
  match o.file with
  | some f => f != ""
  | none => false

/-- The destination path string (only read under the `isFile` guard). -/
def fileOf (o : ReplaceOpt) : String := o.file.getD ""

/-- The compressed-destination test of the `replace` validation: explicit
gzip or brotli flag, or a recognized compressed suffix of the destination. -/
def compressedDest (o : ReplaceOpt) : Bool :=
  o.gzip || o.brotli || (fileOf o).endsWith ".br" || (fileOf o).endsWith ".tbr"

/-- The validation callback passed by `replace` to `makeCommand`: file
configured, not a compressed destination, non-empty entry list; the first
failing check's error is raised. -/
def validateReplace (o : ReplaceOpt) (entries : List String) : Option String :=
  if !(isFile o) then some "file is required"
  else if compressedDest o then some "cannot append to compressed archives"
  else if entries.length = 0 then some "no paths specified to add/replace"
  else none

/-- Modelled from the spec: `makeCommand` (outside src/) runs the validation
step before dispatching to the implementation that opens the destination
file; the blocking scan stands for that implementation. -/
def replaceCommand (o : ReplaceOpt) (entries : List String) (d : Decoder)
    (m : Bool) (file : List Nat) : Except String (Nat × List (String × Nat)) :=
  match validateReplace o entries with
  | some e => .error e
  | none => replaceSyncPos d m file

/-- C6: replace validates eagerly — it raises exactly when the destination
path is not configured, the destination is identified as compressed (by flag
or recognized suffix), or the input list is empty; and when it raises, the
command fails with that error for every possible destination file content,
before any byte of it is consulted. -/
theorem replace_validates_eagerly (o : ReplaceOpt) (entries : List String) :
    ((validateReplace o entries).isSome ↔
        (isFile o = false ∨ compressedDest o = true ∨ entries = [])) ∧
      (∀ e, validateReplace o entries = some e →
        ∀ (d : Decoder) (m : Bool) (file : List Nat),
          replaceCommand o entries d m file = .error e) := by
  constructor
  · unfold validateReplace
    by_cases h1 : isFile o
    · by_cases h2 : compressedDest o
      · simp [h1, h2]
      · by_cases h3 : entries.length = 0
        · have : entries = [] := List.length_eq_zero.mp h3
          simp [h1, h2, h3, this]
        · have : ¬ entries = [] := fun hc => h3 (by simp [hc])
          simp [h1, h2, h3, this]
    · simp only [Bool.not_eq_true] at h1
      simp [h1]
  · intro e he d m file
    unfold replaceCommand
    rw [he]

/-- Witness for C6 with an unconfigured destination path. -/
theorem replace_validates_eagerly_w :
    replaceCommand ⟨none, false, false⟩ ["x"] dNone false [] =
      .error "file is required" :=
  (replace_validates_eagerly ⟨none, false, false⟩ ["x"]).2
    "file is required" rfl dNone false []

/-! The Entry stream state machine (src/src/list.ts, lines 438-559).  The
`emit` calls are modelled as an emitted-event list; no listener mutates the
stream, matching the explicit finite-state reading of the class. -/

/-- Events emitted by the Entry stream. -/
inductive EntryEvent where
  | data (c : List Nat)
  | drain
  | ended
  | error (msg : String)
  | pauseEv
  | resumeEv
deriving DecidableEq, Repr

/-- The mutable fields of an Entry set up by the constructor
(lines 443-452). -/
structure EntryState where
  needDrain : Bool
  paused : Bool
  reading : Bool
  ending : Bool
  ended : Bool
  remaining : Int
  queue : List (List Nat)
  index : Nat
  queueLen : Nat
  maxQueueLen : Option Nat
deriving DecidableEq, Repr

/-- Delivery step of `_read`: if `this._index < this._queueLen`, emit the
chunk `this._queue[this._index++]`. -/
def readDeliver (s : EntryState) : EntryState × List EntryEvent :=
  if s.index < s.queueLen then
    ({ s with index := s.index + 1 }, [.data (s.queue.getD s.index [])])
  else (s, [])

/-- Drained check of `_read`: once `this._index >= this._queueLen` the queue
is reset, a drain event fires if backpressure was asserted, and the stream
ends once ending was set. -/
def readDrainEnd (s : EntryState) : EntryState × List EntryEvent :=
  if s.queueLen ≤ s.index then
    if s.needDrain then
      if s.ending then
        ({ s with
            queue := [], queueLen := 0, index := 0, needDrain := false,
            ended := true }, [.drain, .ended])
      else
        ({ s with
            queue := [], queueLen := 0, index := 0,
            needDrain := false }, [.drain])
    else
      if s.ending then
        ({ s with queue := [], queueLen := 0, index := 0, ended := true },
          [.ended])
      else ({ s with queue := [], queueLen := 0, index := 0 }, [])
  else (s, [])

/-- Bounded compaction of `_read`: `this._maxQueueLen` is never assigned by
the class, so `this._queueLen > mql` compares with `undefined` and is false
(the `none` case); with a configured maximum, already-delivered entries are
evicted. -/
def readCompact (s : EntryState) : EntryState :=
  match s.maxQueueLen with
  | none => s
  | some mql =>
    if mql < s.queueLen ∧ 0 < s.index then
      { s with
          index := s.index - min s.index mql,
          queueLen := s.queueLen - min s.index mql,
          queue := s.queue.drop (min s.index mql) }
    else s

/-- The `_read` method: a no-op while paused, mid-delivery, or ended;
otherwise the reading flag round-trips around one delivery attempt, the
drained check and the compaction. -/
def entryRead (s : EntryState) : EntryState × List EntryEvent :=
  if s.paused || s.reading || s.ended then (s, [])
  else
    let s1 := { s with reading := true }
    let d := readDeliver s1
    let e := readDrainEnd d.1
    ({ readCompact e.1 with reading := false }, d.2 ++ e.2)

/-- Buffer slice `c.slice(0, e)`: a negative end counts from the end of the
buffer, clamping at 0. -/
def bufSliceTo (c : List Nat) (e : Int) : List Nat :=
  c.take (if e < 0 then ((c.length : Int) + e).toNat else e.toNat)

/-- The chunk actually enqueued by `write`: truncated to the remaining
capacity when longer (`if (c.length > this._remaining) c = c.slice(0,
this._remaining)`). -/
def writeChunk (c : List Nat) (s : EntryState) : List Nat :=
  if (c.length : Int) > s.remaining then bufSliceTo c s.remaining else c

/-- The error events emitted at the top of `write`: the past-eof error when
remaining capacity is already 0 (execution then continues). -/
def writeErrEvs (s : EntryState) : List EntryEvent :=
  if s.remaining = 0 then [.error "invalid bytes past eof"] else []

/-- The state after `write` decrements remaining and pushes the (possibly
truncated) chunk, before the `_read()` call. -/
def writeState (c : List Nat) (s : EntryState) : EntryState :=
  { s with
      remaining := s.remaining - (writeChunk c s).length,
      queue := s.queue ++ [writeChunk c s], queueLen := s.queueLen + 1 }

/-- The `write` method (lines 470-497): throws after `end()`; signals the
past-eof error when remaining is already 0 (and then continues); truncates
the chunk to the remaining capacity; decrements remaining; enqueues; runs a
delivery attempt; returns false (asserting backpressure, setting the
needDrain flag) if paused after the delivery attempt or a previous chunk was
still queued (`ql > 0` with `ql` captured before the push). -/
def entryWrite (c : List Nat) (s : EntryState) :
    Except String (Bool × EntryState × List EntryEvent) :=
  if s.ending then .error "write() after end()"
  else
    if (entryRead (writeState c s)).1.paused || 0 < s.queueLen then
      .ok (false, { (entryRead (writeState c s)).1 with needDrain := true },
        writeErrEvs s ++ (entryRead (writeState c s)).2)
    else
      .ok (true, (entryRead (writeState c s)).1,
        writeErrEvs s ++ (entryRead (writeState c s)).2)

/-- The `end` method (lines 499-503): optionally writes a final chunk (whose
throw propagates before any state change), marks ending, and triggers
delivery. -/
def entryEnd (c : Option (List Nat)) (s : EntryState) :
    Except String (EntryState × List EntryEvent) :=
  match c with
  | some ch =>
    match entryWrite ch s with
    | .error e => .error e
    | .ok (_, s1, evs1) =>
      .ok ((entryRead { s1 with ending := true }).1,
        evs1 ++ (entryRead { s1 with ending := true }).2)
  | none =>
    .ok ((entryRead { s with ending := true }).1,
      (entryRead { s with ending := true }).2)

/-- The `pause` method (lines 505-508). -/
def entryPause (s : EntryState) : EntryState × List EntryEvent :=
  ({ s with paused := true }, [.pauseEv])

/-- The `resume` method (lines 510-517): emits resume, clears the paused
flag, runs a delivery attempt, and returns
`this._queueLen - this._index > 1` on the post-delivery state. -/
def entryResume (s : EntryState) : Bool × EntryState × List EntryEvent :=
  let r := entryRead { s with paused := false }
  (decide (1 < r.1.queueLen - r.1.index), r.1, .resumeEv :: r.2)

lemma readDeliver_paused (s : EntryState) :
    (readDeliver s).1.paused = s.paused := by
  unfold readDeliver
  split <;> rfl

lemma readDrainEnd_paused (s : EntryState) :
    (readDrainEnd s).1.paused = s.paused := by
  unfold readDrainEnd
  repeat' split
  all_goals rfl

lemma readCompact_paused (s : EntryState) :
    (readCompact s).paused = s.paused := by
  unfold readCompact
  repeat' split
  all_goals rfl

lemma entryRead_paused (s : EntryState) :
    (entryRead s).1.paused = s.paused := by
  unfold entryRead
  split
  · rfl
  · show (readCompact (readDrainEnd (readDeliver
        { s with reading := true }).1).1).paused = s.paused
    rw [readCompact_paused, readDrainEnd_paused, readDeliver_paused]

/-- A paused Entry holding two undelivered chunks (reached, e.g., by two
writes while paused on a remaining capacity of 2). -/
def sPending : EntryState :=
  { needDrain := true, paused := true, reading := false, ending := false,
    ended := false, remaining := 0, queue := [[1], [2]], index := 0,
    queueLen := 2, maxQueueLen := none }

/-- C3, counterexample: resuming a stream with two buffered chunks delivers
one of them and leaves one undelivered in the queue, yet `resume()` returns
false, because the source compares `_queueLen - _index > 1` rather than
`> 0`. -/
theorem resume_single_chunk_returns_false :
    (entryResume sPending).1 = false ∧
      (entryResume sPending).2.1.index < (entryResume sPending).2.1.queueLen :=
  ⟨by decide, by decide⟩

/-- C3, amended: `resume()` clears the paused flag and triggers one delivery
attempt; its return value is true exactly when more than one undelivered
chunk remains buffered at the time it returns — a single remaining
undelivered chunk yields false. -/
theorem resume_characterization (s : EntryState) :
    (entryResume s).2.1 = (entryRead { s with paused := false }).1 ∧
      (entryResume s).2.1.paused = false ∧
      ((entryResume s).1 = true ↔
        1 < (entryResume s).2.1.queueLen - (entryResume s).2.1.index) := by
  refine ⟨rfl, ?_, by simp [entryResume]⟩
  show (entryRead { s with paused := false }).1.paused = false
  rw [entryRead_paused]

/-! Driver model for C10: arbitrary sequences of `write`/`end` calls against
an Entry, with a thrown call leaving the state unchanged (the throw precedes
any mutation). -/

/-- A producer call against the Entry stream. -/
inductive EntryOp where
  | write (c : List Nat)
  | endOp (c : Option (List Nat))

/-- Effect of one producer call; a thrown call mutates nothing. -/
def entryStep (op : EntryOp) (s : EntryState) : EntryState × List EntryEvent :=
  match op with
  | .write c =>
    match entryWrite c s with
    | .error _ => (s, [])
    | .ok (_, s', evs) => (s', evs)
  | .endOp c =>
    match entryEnd c s with
    | .error _ => (s, [])
    | .ok (s', evs) => (s', evs)

/-- Run a sequence of producer calls, collecting all emitted events. -/
def runOps : List EntryOp → EntryState → EntryState × List EntryEvent
  | [], s => (s, [])
  | op :: rest, s =>
    ((runOps rest (entryStep op s).1).1,
      (entryStep op s).2 ++ (runOps rest (entryStep op s).1).2)

/-- Total length of the buffered-but-undelivered chunks. -/
def undelSum (s : EntryState) : Nat :=
  ((s.queue.drop s.index).map List.length).sum

/-- Total length of the data chunks among emitted events. -/
def dataSum (evs : List EntryEvent) : Nat :=
  (evs.map fun e =>
    match e with
    | .data c => c.length
    | _ => 0).sum

/-- Invariant tying an Entry state with declared size `n` to the data length
`dl` delivered so far: remaining capacity is non-negative and accounts,
together with delivered and still-buffered bytes, for exactly `n`; the
bookkeeping fields are consistent; `_maxQueueLen` is never assigned. -/
def EntryInv (n : Nat) (s : EntryState) (dl : Nat) : Prop :=
  0 ≤ s.remaining ∧ s.remaining.toNat + dl + undelSum s = n ∧
    s.index ≤ s.queueLen ∧ s.queueLen = s.queue.length ∧
    s.maxQueueLen = none

lemma dataSum_append (a b : List EntryEvent) :
    dataSum (a ++ b) = dataSum a + dataSum b := by
  simp [dataSum]

lemma drop_sum_eq (q : List (List Nat)) (i : Nat) (hi : i < q.length) :
    ((q.drop i).map List.length).sum
      = (q.getD i []).length + ((q.drop (i + 1)).map List.length).sum := by
  rw [List.drop_eq_getElem_cons hi, List.map_cons, List.sum_cons,
    List.getD_eq_getElem?_getD, List.getElem?_eq_getElem hi]
  rfl

lemma readDeliver_inv (n dl : Nat) (s : EntryState) (h : EntryInv n s dl) :
    EntryInv n (readDeliver s).1 (dl + dataSum (readDeliver s).2) := by
  obtain ⟨h0, h1, h2, h3, h4⟩ := h
  unfold readDeliver
  split
  case isTrue hlt =>
    have hq : s.index < s.queue.length := by omega
    have hun : undelSum s
        = (s.queue.getD s.index []).length +
          ((s.queue.drop (s.index + 1)).map List.length).sum :=
      drop_sum_eq s.queue s.index hq
    refine ⟨h0, ?_, by show s.index + 1 ≤ s.queueLen; omega, h3, h4⟩
    show s.remaining.toNat +
        (dl + dataSum [.data (s.queue.getD s.index [])]) +
        undelSum { s with index := s.index + 1 } = n
    have hd : dataSum [EntryEvent.data (s.queue.getD s.index [])]
        = (s.queue.getD s.index []).length := by
      simp [dataSum]
    have hu2 : undelSum { s with index := s.index + 1 }
        = ((s.queue.drop (s.index + 1)).map List.length).sum := rfl
    omega
  case isFalse =>
    exact ⟨h0, h1, h2, h3, h4⟩

lemma readDrainEnd_inv (n dl : Nat) (s : EntryState) (h : EntryInv n s dl) :
    EntryInv n (readDrainEnd s).1 dl := by
  obtain ⟨h0, h1, h2, h3, h4⟩ := h
  unfold readDrainEnd
  split
  case isTrue hle =>
    have hz : undelSum s = 0 := by
      unfold undelSum
      rw [List.drop_eq_nil_of_le (by omega)]
      rfl
    have hn : s.remaining.toNat + dl = n := by omega
    repeat' split
    all_goals exact ⟨h0, by simpa [undelSum] using hn, by simp, rfl, h4⟩
  case isFalse =>
    exact ⟨h0, h1, h2, h3, h4⟩

lemma readDrainEnd_dataSum (s : EntryState) :
    dataSum (readDrainEnd s).2 = 0 := by
  unfold readDrainEnd
  repeat' split
  all_goals rfl

lemma readCompact_none (s : EntryState) (h : s.maxQueueLen = none) :
    readCompact s = s := by
  unfold readCompact
  rw [h]

lemma entryRead_inv (n dl : Nat) (s : EntryState) (h : EntryInv n s dl) :
    EntryInv n (entryRead s).1 (dl + dataSum (entryRead s).2) := by
  unfold entryRead
  split
  case isTrue =>
    exact h
  case isFalse =>
    have h1 : EntryInv n { s with reading := true } dl := h
    have h2 := readDeliver_inv n dl _ h1
    have h3 := readDrainEnd_inv n _ _ h2
    have h4 := readCompact_none _ h3.2.2.2.2
    show EntryInv n
      { readCompact (readDrainEnd (readDeliver
          { s with reading := true }).1).1 with reading := false } _
    rw [h4]
    have h5 : EntryInv n
        { (readDrainEnd (readDeliver { s with reading := true }).1).1 with
          reading := false }
        (dl + dataSum (readDeliver { s with reading := true }).2) := h3
    simpa [dataSum_append, readDrainEnd_dataSum] using h5

lemma writeChunk_length (c : List Nat) (s : EntryState)
    (h0 : 0 ≤ s.remaining) :
    ((writeChunk c s).length : Int) ≤ s.remaining ∧
      (writeChunk c s).length ≤ c.length := by
  unfold writeChunk
  split
  case isTrue hgt =>
    unfold bufSliceTo
    rw [if_neg (by omega)]
    simp only [List.length_take]
    omega
  case isFalse hle =>
    omega

lemma writeState_inv (n dl : Nat) (c : List Nat) (s : EntryState)
    (h : EntryInv n s dl) : EntryInv n (writeState c s) dl := by
  obtain ⟨h0, h1, h2, h3, h4⟩ := h
  obtain ⟨hw1, hw2⟩ := writeChunk_length c s h0
  have hdrop : ((s.queue ++ [writeChunk c s]).drop s.index)
      = s.queue.drop s.index ++ [writeChunk c s] :=
    List.drop_append_of_le_length (by omega)
  have hu : undelSum (writeState c s)
      = undelSum s + (writeChunk c s).length := by
    show (((s.queue ++ [writeChunk c s]).drop s.index).map List.length).sum
        = undelSum s + (writeChunk c s).length
    rw [hdrop]
    unfold undelSum
    simp
  refine ⟨?_, ?_, ?_, ?_, h4⟩
  · show 0 ≤ s.remaining - ((writeChunk c s).length : Int)
    omega
  · show (s.remaining - ((writeChunk c s).length : Int)).toNat + dl +
        undelSum (writeState c s) = n
    rw [hu]
    omega
  · show s.index ≤ s.queueLen + 1
    omega
  · show s.queueLen + 1 = (s.queue ++ [writeChunk c s]).length
    simp [h3]

lemma writeErrEvs_dataSum (s : EntryState) : dataSum (writeErrEvs s) = 0 := by
  unfold writeErrEvs
  split
  all_goals rfl

lemma entryWrite_inv (n dl : Nat) (c : List Nat) (s : EntryState)
    (ret : Bool) (s' : EntryState) (evs : List EntryEvent)
    (h : EntryInv n s dl) (hw : entryWrite c s = .ok (ret, s', evs)) :
    EntryInv n s' (dl + dataSum evs) := by
  unfold entryWrite at hw
  by_cases hend : s.ending = true
  · rw [if_pos hend] at hw
    exact absurd hw (by simp)
  · rw [if_neg hend] at hw
    have hr := entryRead_inv n dl (writeState c s) (writeState_inv n dl c s h)
    by_cases hb : ((entryRead (writeState c s)).1.paused || 0 < s.queueLen)
      = true
    · rw [if_pos hb] at hw
      obtain ⟨-, hs', hevs⟩ :
          false = ret ∧
            ({ (entryRead (writeState c s)).1 with needDrain := true } = s') ∧
            writeErrEvs s ++ (entryRead (writeState c s)).2 = evs := by
        simpa using hw
      rw [← hs', ← hevs]
      have : EntryInv n
          { (entryRead (writeState c s)).1 with needDrain := true }
          (dl + dataSum (entryRead (writeState c s)).2) := hr
      simpa [dataSum_append, writeErrEvs_dataSum] using this
    · rw [if_neg hb] at hw
      obtain ⟨-, hs', hevs⟩ :
          true = ret ∧ ((entryRead (writeState c s)).1 = s') ∧
            writeErrEvs s ++ (entryRead (writeState c s)).2 = evs := by
        simpa using hw
      rw [← hs', ← hevs]
      simpa [dataSum_append, writeErrEvs_dataSum] using hr

lemma entryEnd_inv (n dl : Nat) (c : Option (List Nat)) (s : EntryState)
    (s' : EntryState) (evs : List EntryEvent)
    (h : EntryInv n s dl) (he : entryEnd c s = .ok (s', evs)) :
    EntryInv n s' (dl + dataSum evs) := by
  cases c with
  | none =>
    simp only [entryEnd] at he
    have hp : ((entryRead { s with ending := true }).1,
        (entryRead { s with ending := true }).2) = (s', evs) := by
      simpa using he
    have hs' : (entryRead { s with ending := true }).1 = s' :=
      congrArg Prod.fst hp
    have hevs : (entryRead { s with ending := true }).2 = evs :=
      congrArg Prod.snd hp
    rw [← hs', ← hevs]
    have h1 : EntryInv n { s with ending := true } dl := h
    exact entryRead_inv n dl _ h1
  | some ch =>
    simp only [entryEnd] at he
    cases hw : entryWrite ch s with
    | error e =>
      rw [hw] at he
      exact absurd he (by simp)
    | ok p =>
      obtain ⟨retw, s1, evs1⟩ := p
      rw [hw] at he
      have hp : ((entryRead { s1 with ending := true }).1,
          evs1 ++ (entryRead { s1 with ending := true }).2) = (s', evs) := by
        simpa using he
      have hs' : (entryRead { s1 with ending := true }).1 = s' :=
        congrArg Prod.fst hp
      have hevs : evs1 ++ (entryRead { s1 with ending := true }).2 = evs :=
        congrArg Prod.snd hp
      rw [← hs', ← hevs]
      have h1 := entryWrite_inv n dl ch s retw s1 evs1 h hw
      have h2 : EntryInv n { s1 with ending := true } (dl + dataSum evs1) := h1
      have h3 := entryRead_inv n (dl + dataSum evs1) _ h2
      simpa [dataSum_append, Nat.add_assoc] using h3

lemma entryStep_inv (n dl : Nat) (op : EntryOp) (s : EntryState)
    (h : EntryInv n s dl) :
    EntryInv n (entryStep op s).1 (dl + dataSum (entryStep op s).2) := by
  cases op with
  | write c =>
    cases hw : entryWrite c s with
    | error e =>
      simp only [entryStep, hw]
      exact h
    | ok p =>
      obtain ⟨ret, s', evs⟩ := p
      simp only [entryStep, hw]
      exact entryWrite_inv n dl c s ret s' evs h hw
  | endOp c =>
    cases hw : entryEnd c s with
    | error e =>
      simp only [entryStep, hw]
      exact h
    | ok p =>
      obtain ⟨s', evs⟩ := p
      simp only [entryStep, hw]
      exact entryEnd_inv n dl c s s' evs h hw

lemma runOps_inv (ops : List EntryOp) (n dl : Nat) (s : EntryState)
    (h : EntryInv n s dl) :
    EntryInv n (runOps ops s).1 (dl + dataSum (runOps ops s).2) := by
  induction ops generalizing dl s with
  | nil => simpa [runOps, dataSum] using h
  | cons op rest ih =>
    have h1 := entryStep_inv n dl op s h
    have h2 := ih (dl + dataSum (entryStep op s).2) (entryStep op s).1 h1
    simpa [runOps, dataSum_append, Nat.add_assoc] using h2

/-- The field initialization done by the Entry constructor (lines 443-452)
followed by `_setProps` seeding `_remaining = props.size` from a numeric
merged size. -/
def mkEntryNum (n : Int) : EntryState :=
  { needDrain := false, paused := false, reading := false, ending := false,
    ended := false, remaining := n, queue := [], index := 0, queueLen := 0,
    maxQueueLen := none }

/-- C10: for every Entry whose merged size is a non-negative integer n, under
any sequence of write and end calls the remaining-bytes counter never becomes
negative, and the cumulative length of delivered data plus the bytes still
buffered (each written chunk having been truncated to the remaining capacity
before being enqueued) never exceeds n. -/
theorem remaining_never_negative (header extended global : Layer) (n : Nat)
    (ops : List EntryOp)
    (_hsize : mergedProps header extended global Field.size
      = some (Value.num n)) :
    0 ≤ (runOps ops (mkEntryNum n)).1.remaining ∧
      dataSum (runOps ops (mkEntryNum n)).2 +
        undelSum (runOps ops (mkEntryNum n)).1 ≤ n := by
  have h0 : EntryInv n (mkEntryNum n) 0 := by
    refine ⟨by simp [mkEntryNum], ?_, by simp [mkEntryNum],
      by simp [mkEntryNum], rfl⟩
    simp [mkEntryNum, undelSum]
  have hinv := runOps_inv ops n 0 (mkEntryNum n) h0
  obtain ⟨a, b, -, -, -⟩ := hinv
  exact ⟨a, by omega⟩

/-- Witness for C10: an entry of size 100, one three-byte write. -/
theorem remaining_never_negative_w :
    0 ≤ (runOps [EntryOp.write [1, 2, 3]] (mkEntryNum 100)).1.remaining ∧
      dataSum (runOps [EntryOp.write [1, 2, 3]] (mkEntryNum 100)).2 +
        undelSum (runOps [EntryOp.write [1, 2, 3]] (mkEntryNum 100)).1 ≤ 100 :=
  remaining_never_negative hdr0 emptyLayer emptyLayer 100
    [EntryOp.write [1, 2, 3]] (by decide)

/-! PathFilter: `filesFilter` (src/src/list.ts, lines 27-55).  The node path
helpers `path.parse().root` and `path.dirname`, and the strip-trailing
slashes helper, live outside src/ and are modelled from the spec for posix
paths.  `mapHasF` carries an explicit call-depth fuel: the source
recursion's depth is bounded by the component count of the queried path, and
fuel exhaustion (`none`) models a walk that would never terminate, which no
well-formed query reaches. -/

/-- Modelled from the spec: the strip-trailing-slashes helper (outside
src/) — all trailing path separators are removed. -/
def stripTrailingSlashes (s : String) : String :=
  String.mk (s.data.reverse.dropWhile (· == '/')).reverse

/-- Modelled from the spec: `path.parse(file).root` for posix paths — "/"
for an absolute path, "" otherwise. -/
def parseRoot (s : String) : String :=
  if s.data.head? = some '/' then "/" else ""

/-- Characters of a path with its final component (and the separator before
it) removed. -/
def dropLastComponent (l : List Char) : List Char :=
  ((l.reverse.dropWhile (· != '/')).tail).reverse

/-- Modelled from the spec: `path.dirname` for posix paths — everything
before the final separator; "." for a separator-free path, "/" when only the
leading separator would remain. -/
def dirname (p : String) : String :=
  if '/' ∈ p.data then
    if dropLastComponent p.data = [] then "/"
    else String.mk (dropLastComponent p.data)
  else "."

/-- `const root = r || parse(file).root || '.'` -/
def rootFor (file r : String) : String :=
  if r ≠ "" then r
  else if parseRoot file ≠ "" then parseRoot file else "."

/-- The filter map: requested entries plus memoized walk results; a cons
shadows older entries, as `Map.set` overwrites. -/
def Memo : Type := List (String × Bool)

/-- Lookup `map.get(file)`. -/
def memoLookup : Memo → String → Option Bool
  | [], _ => none
  | (k, v) :: rest, s => if k = s then some v else memoLookup rest s

/-- The recursive `mapHas(file, r)` of `filesFilter`, with explicit
call-depth fuel; every branch memoizes its result (`map.set(file, ret)`)
before returning. -/
def mapHasF : Nat → Memo → String → String → Option (Bool × Memo)
  | 0, _, _, _ => none
  | fuel + 1, memo, file, r =>
    if file = rootFor file r then
      some (false, (file, false) :: memo)
    else
      match memoLookup memo file with
      | some m => some (m, (file, m) :: memo)
      | none =>
        match mapHasF fuel memo (dirname file) (rootFor file r) with
        | none => none
        | some (ret, memo') => some (ret, (file, ret) :: memo')

/-- The map built by `filesFilter`: every requested path, stripped of
trailing separators, marked true. -/
def buildMemo (files : List String) : Memo :=
  files.map fun f => (stripTrailingSlashes f, true)

/-- One query through the installed filter closure
`file => mapHas(stripTrailingSlashes(file))`, on a freshly built map. -/
def included (files : List String) (file : String) : Option Bool :=
  (mapHasF ((stripTrailingSlashes file).length + 2) (buildMemo files)
    (stripTrailingSlashes file) "").map Prod.fst

/-- Sequential queries against one filter instance, threading the shared
mutable map from query to query. -/
def runQueries : Memo → List String → List (Option Bool) × Memo
  | memo, [] => ([], memo)
  | memo, q :: rest =>
    match mapHasF ((stripTrailingSlashes q).length + 2) memo
        (stripTrailingSlashes q) "" with
    | none => (none :: (runQueries memo rest).1, (runQueries memo rest).2)
    | some (b, m1) =>
      (some b :: (runQueries m1 rest).1, (runQueries m1 rest).2)

/-- Join path components with separators. -/
def joinC : List (List Char) → List Char
  | [] => []
  | [c] => c
  | c :: cs => c ++ '/' :: joinC cs

/-- The relative slash-joined path of a component list. -/
def joinPath (css : List (List Char)) : String := String.mk (joinC css)

/-- A well-formed relative path component: non-empty, separator-free, and
not the self-referential ".". -/
def goodComp (c : List Char) : Prop := c ≠ [] ∧ '/' ∉ c ∧ c ≠ ['.']

instance (c : List Char) : Decidable (goodComp c) := by
  unfold goodComp; infer_instance

/-- Reference walk over reversed components: the nearest marked entry found
going from the full path upward. -/
def specHasR (memo : Memo) : List (List Char) → Bool
  | [] => false
  | c :: rest =>
    (memoLookup memo (joinPath ((c :: rest).reverse))).getD (specHasR memo rest)

/-- Reference semantics of the memoized walk: look the path itself up, then
each ancestor in turn; false at the root. -/
def specHas (memo : Memo) (css : List (List Char)) : Bool :=
  specHasR memo css.reverse

lemma specHas_concat (memo : Memo) (init : List (List Char)) (c : List Char) :
    specHas memo (init ++ [c])
      = (memoLookup memo (joinPath (init ++ [c]))).getD (specHas memo init) := by
  unfold specHas
  have h1 : (init ++ [c]).reverse = c :: init.reverse := by simp
  rw [h1]
  show (memoLookup memo (joinPath ((c :: init.reverse).reverse))).getD
      (specHasR memo init.reverse) = _
  have h2 : (c :: init.reverse).reverse = init ++ [c] := by simp
  rw [h2]

lemma joinC_append_single (css : List (List Char)) (c : List Char)
    (h : css ≠ []) : joinC (css ++ [c]) = joinC css ++ '/' :: c := by
  induction css with
  | nil => exact absurd rfl h
  | cons a l ih =>
    cases l with
    | nil => rfl
    | cons b m =>
      have ih2 := ih (by simp)
      show a ++ '/' :: joinC ((b :: m) ++ [c])
          = (a ++ '/' :: joinC (b :: m)) ++ '/' :: c
      rw [ih2]
      simp

lemma joinC_ne_nil (css : List (List Char)) (h : css ≠ [])
    (hg : ∀ c ∈ css, goodComp c) : joinC css ≠ [] := by
  cases css with
  | nil => exact absurd rfl h
  | cons c l =>
    cases l with
    | nil =>
      have hc := (hg c (by simp)).1
      simpa [joinC] using hc
    | cons d m =>
      show c ++ '/' :: joinC (d :: m) ≠ []
      simp

lemma joinC_length_ge (css : List (List Char))
    (hg : ∀ c ∈ css, goodComp c) : css.length ≤ (joinC css).length := by
  induction css with
  | nil => simp [joinC]
  | cons c l ih =>
    have hc : 1 ≤ c.length := by
      have := (hg c (by simp)).1
      cases c with
      | nil => exact absurd rfl this
      | cons x xs => simp
    cases l with
    | nil => simpa [joinC] using hc
    | cons d m =>
      have ih2 := ih (fun x hx => hg x (by simp [hx]))
      show (d :: m).length + 1 ≤ (c ++ '/' :: joinC (d :: m)).length
      simp only [List.length_append, List.length_cons]
      simp only [List.length_cons] at ih2
      omega

lemma head_joinC_ne_slash (css : List (List Char)) (h : css ≠ [])
    (hg : ∀ c ∈ css, goodComp c) : (joinC css).head? ≠ some '/' := by
  cases css with
  | nil => exact absurd rfl h
  | cons c l =>
    obtain ⟨hc1, hc2, -⟩ := hg c (by simp)
    cases c with
    | nil => exact absurd rfl hc1
    | cons x xs =>
      have hx : x ≠ '/' := fun he => hc2 (by rw [← he]; simp)
      cases l
      all_goals
        show (some x : Option Char) ≠ some '/'
        simp [hx]

lemma parseRoot_join (css : List (List Char)) (h : css ≠ [])
    (hg : ∀ c ∈ css, goodComp c) : parseRoot (joinPath css) = "" := by
  unfold parseRoot joinPath
  rw [if_neg]
  exact head_joinC_ne_slash css h hg

lemma join_ne_dot (css : List (List Char)) (h : css ≠ [])
    (hg : ∀ c ∈ css, goodComp c) : joinPath css ≠ "." := by
  intro hc
  have hdata : joinC css = ['.'] := by
    have := congrArg String.data hc
    simpa [joinPath] using this
  cases css with
  | nil => exact absurd rfl h
  | cons c l =>
    cases l with
    | nil =>
      obtain ⟨-, -, hdot⟩ := hg c (by simp)
      exact hdot (by simpa [joinC] using hdata)
    | cons d m =>
      obtain ⟨hc1, -, -⟩ := hg c (by simp)
      have hlen : (c ++ '/' :: joinC (d :: m)).length = 1 :=
        congrArg List.length hdata
      have hcl : 1 ≤ c.length := by
        cases c with
        | nil => exact absurd rfl hc1
        | cons x xs => simp
      simp only [List.length_append, List.length_cons] at hlen
      omega

lemma rootFor_join (css : List (List Char)) (h : css ≠ [])
    (hg : ∀ c ∈ css, goodComp c) (r : String) (hr : r = "" ∨ r = ".") :
    rootFor (joinPath css) r = "." := by
  unfold rootFor
  rcases hr with rfl | rfl
  · rw [if_neg (by simp), parseRoot_join css h hg, if_neg (by simp)]
  · rw [if_pos (by decide)]

lemma dropWhile_append_all (p : Char → Bool) (l m : List Char)
    (h : ∀ x ∈ l, p x = true) : (l ++ m).dropWhile p = m.dropWhile p := by
  induction l with
  | nil => rfl
  | cons x xs ih =>
    rw [List.cons_append, List.dropWhile_cons, if_pos (h x (by simp))]
    exact ih (fun z hz => h z (by simp [hz]))

lemma strip_join (css : List (List Char)) (h : css ≠ [])
    (hg : ∀ c ∈ css, goodComp c) :
    stripTrailingSlashes (joinPath css) = joinPath css := by
  rcases List.eq_nil_or_concat css with rfl | ⟨init, c, hcat⟩
  · exact absurd rfl h
  · rw [List.concat_eq_append] at hcat
    subst hcat
    obtain ⟨hc1, hc2, -⟩ := hg c (by simp)
    cases hcr : c.reverse with
    | nil => exact absurd (by simpa using congrArg List.reverse hcr) hc1
    | cons y ys =>
      have hy : y ≠ '/' := by
        have hyc : y ∈ c := List.mem_reverse.mp (hcr ▸ List.mem_cons_self y ys)
        intro he
        rw [he] at hyc
        exact hc2 hyc
      have hhead : (joinC (init ++ [c])).reverse.head? = some y := by
        by_cases hinit : init = []
        · subst hinit
          show c.reverse.head? = some y
          rw [hcr]
          rfl
        · rw [joinC_append_single init c hinit, List.reverse_append,
            List.reverse_cons, hcr]
          rfl
      have hstr : ((joinC (init ++ [c])).reverse).dropWhile (· == '/')
          = (joinC (init ++ [c])).reverse := by
        cases hjr : (joinC (init ++ [c])).reverse with
        | nil => rfl
        | cons z zs =>
          have hz : z = y := by
            rw [hjr] at hhead
            simpa using hhead
          rw [List.dropWhile_cons, if_neg (by simp [hz, hy])]
      apply String.ext
      show ((joinC (init ++ [c])).reverse.dropWhile (· == '/')).reverse
          = joinC (init ++ [c])
      rw [hstr, List.reverse_reverse]

lemma dirname_join_single (c : List Char) (hg : goodComp c) :
    dirname (joinPath [c]) = "." := by
  unfold dirname
  rw [if_neg]
  exact hg.2.1

lemma dirname_join_concat (init : List (List Char)) (c : List Char)
    (hne : init ≠ []) (hg : ∀ x ∈ init ++ [c], goodComp x) :
    dirname (joinPath (init ++ [c])) = joinPath init := by
  have hjoin : joinC (init ++ [c]) = joinC init ++ '/' :: c :=
    joinC_append_single init c hne
  have hgc := hg c (by simp)
  have hmem : '/' ∈ (joinPath (init ++ [c])).data := by
    show '/' ∈ joinC (init ++ [c])
    rw [hjoin]
    simp
  have hall : ∀ x ∈ c.reverse, (x != '/') = true := by
    intro x hx
    have hxc : x ∈ c := List.mem_reverse.mp hx
    have : x ≠ '/' := fun he => hgc.2.1 (he ▸ hxc)
    simpa using this
  have hdlc : dropLastComponent (joinPath (init ++ [c])).data = joinC init := by
    show dropLastComponent (joinC (init ++ [c])) = joinC init
    unfold dropLastComponent
    rw [hjoin, List.reverse_append, List.reverse_cons, List.append_assoc,
      dropWhile_append_all _ c.reverse (['/'] ++ (joinC init).reverse) hall]
    rw [show ['/'] ++ (joinC init).reverse = '/' :: (joinC init).reverse
      from rfl]
    rw [List.dropWhile_cons, if_neg (by simp)]
    rw [List.tail_cons, List.reverse_reverse]
  have hni : joinC init ≠ [] :=
    joinC_ne_nil init hne (fun x hx => hg x (by simp [hx]))
  unfold dirname
  rw [if_pos hmem, hdlc, if_neg hni]
  rfl

lemma mapHasF_join (memo : Memo) :
    ∀ (css : List (List Char)), css ≠ [] →
      (∀ c ∈ css, goodComp c) → ∀ (fuel : Nat) (r : String),
      (r = "" ∨ r = ".") → css.length + 1 ≤ fuel →
      ∃ memo', mapHasF fuel memo (joinPath css) r
        = some (specHas memo css, memo') := by
  intro css
  induction css using List.reverseRecOn with
  | nil => intro h; exact absurd rfl h
  | append_singleton init c ih =>
    intro _ hg fuel r hr hfuel
    obtain ⟨f, rfl⟩ : ∃ f, fuel = f + 1 := ⟨fuel - 1, by omega⟩
    have hroot := rootFor_join (init ++ [c]) (by simp) hg r hr
    have hnedot : joinPath (init ++ [c]) ≠ "." := join_ne_dot _ (by simp) hg
    simp only [mapHasF]
    rw [hroot, if_neg hnedot, specHas_concat]
    cases hlk : memoLookup memo (joinPath (init ++ [c])) with
    | some m =>
      exact ⟨(joinPath (init ++ [c]), m) :: memo, by simp⟩
    | none =>
      simp only [Option.getD_none]
      by_cases hinit : init = []
      · subst hinit
        simp only [List.nil_append]
        rw [dirname_join_single c (hg c (by simp))]
        have hf : 1 ≤ f := by
          simp only [List.length_append, List.length_cons, List.length_nil]
            at hfuel
          omega
        obtain ⟨f', rfl⟩ : ∃ f', f = f' + 1 := ⟨f - 1, by omega⟩
        simp only [mapHasF]
        rw [if_pos (by decide : ("." : String) = rootFor "." ".")]
        exact ⟨(joinPath [c], false) ::
          ((".", false) :: memo), by simp [specHas, specHasR]⟩
      · rw [dirname_join_concat init c hinit hg]
        have hfl : init.length + 1 ≤ f := by
          simp only [List.length_append, List.length_cons, List.length_nil]
            at hfuel
          omega
        obtain ⟨memo'', hrec⟩ := ih hinit
          (fun x hx => hg x (by simp [hx])) f "." (Or.inr rfl) hfl
        rw [hrec]
        exact ⟨(joinPath (init ++ [c]), specHas memo init) :: memo'', by simp⟩

lemma memoLookup_buildMemo (files : List String) (s : String) :
    memoLookup (buildMemo files) s
      = if s ∈ files.map stripTrailingSlashes then some true else none := by
  induction files with
  | nil => rfl
  | cons f fs ih =>
    show (if stripTrailingSlashes f = s then some true
        else memoLookup (buildMemo fs) s) = _
    by_cases h : stripTrailingSlashes f = s
    · rw [if_pos h, if_pos (by rw [← h]; simp)]
    · rw [if_neg h, ih]
      by_cases hm : s ∈ fs.map stripTrailingSlashes
      · rw [if_pos hm, if_pos (by simp [hm])]
      · rw [if_neg hm, if_neg ?hno]
        case hno =>
          intro hcon
          rw [List.map_cons] at hcon
          rcases List.mem_cons.mp hcon with he | hmem
          · exact h he.symm
          · exact hm hmem

lemma specHas_build (files : List String) :
    ∀ (css : List (List Char)), css ≠ [] → (∀ c ∈ css, goodComp c) →
      (specHas (buildMemo files) css = true ↔
        ∃ k, 0 < k ∧ k ≤ css.length ∧
          joinPath (css.take k) ∈ files.map stripTrailingSlashes) := by
  intro css
  induction css using List.reverseRecOn with
  | nil => intro h; exact absurd rfl h
  | append_singleton init c ih =>
    intro _ hg
    rw [specHas_concat, memoLookup_buildMemo]
    by_cases hm : joinPath (init ++ [c]) ∈ files.map stripTrailingSlashes
    · rw [if_pos hm]
      simp only [Option.getD_some]
      constructor
      · intro _
        refine ⟨init.length + 1, by omega, by simp, ?_⟩
        rw [List.take_of_length_le (by simp)]
        exact hm
      · intro _
        trivial
    · rw [if_neg hm]
      simp only [Option.getD_none]
      by_cases hinit : init = []
      · subst hinit
        show specHas (buildMemo files) [] = true ↔ _
        constructor
        · intro hfalse
          exact absurd hfalse (by simp [specHas, specHasR])
        · rintro ⟨k, hk0, hk1, hkm⟩
          have hk : k = 1 := by
            simp only [List.nil_append, List.length_cons, List.length_nil]
              at hk1
            omega
          subst hk
          rw [show ([] ++ [c] : List (List Char)).take 1 = [] ++ [c]
            from by simp] at hkm
          exact absurd hkm hm
      · rw [ih hinit (fun x hx => hg x (by simp [hx]))]
        constructor
        · rintro ⟨k, hk0, hk1, hkm⟩
          refine ⟨k, hk0, by simp only [List.length_append,
            List.length_cons, List.length_nil]; omega, ?_⟩
          rwa [List.take_append_of_le_length hk1]
        · rintro ⟨k, hk0, hk1, hkm⟩
          by_cases hke : k ≤ init.length
          · refine ⟨k, hk0, hke, ?_⟩
            rwa [List.take_append_of_le_length hke] at hkm
          · have hk : k = init.length + 1 := by
              simp only [List.length_append, List.length_cons,
                List.length_nil] at hk1
              omega
            subst hk
            rw [List.take_of_length_le (by simp)] at hkm
            exact absurd hkm hm

lemma included_join (files : List String) (css : List (List Char))
    (hne : css ≠ []) (hg : ∀ c ∈ css, goodComp c) :
    included files (joinPath css) = some (specHas (buildMemo files) css) := by
  unfold included
  rw [strip_join css hne hg]
  have hlg := joinC_length_ge css hg
  have hlen : css.length + 1 ≤ (joinPath css).length + 2 := by
    have : (joinPath css).length = (joinC css).length := rfl
    omega
  obtain ⟨memo', hmap⟩ := mapHasF_join (buildMemo files) css hne hg
    ((joinPath css).length + 2) "" (Or.inl rfl) hlen
  rw [hmap]
  rfl

/-- C8: the filter built from a requested path set answers a well-formed
relative query exactly by the memoized upward walk (`specHas`), which
returns true iff the path or one of its ancestors (a non-empty component
prefix) is marked in the stripped requested set; a path equal to its own
root resolves to false; and on the spec's probe sequence against the set
{"a/b"}, "a/b/c/d" is included while "a/x" and "a" are excluded. -/
theorem filesFilter_included_characterization :
    (∀ (files : List String) (css : List (List Char)), css ≠ [] →
        (∀ c ∈ css, goodComp c) →
        included files (joinPath css)
            = some (specHas (buildMemo files) css) ∧
          (specHas (buildMemo files) css = true ↔
            ∃ k, 0 < k ∧ k ≤ css.length ∧
              joinPath (css.take k) ∈ files.map stripTrailingSlashes)) ∧
      (∀ files : List String, included files "." = some false) ∧
      (runQueries (buildMemo ["a/b"]) ["a/b/c/d", "a/x", "a"]).1
        = [some true, some false, some false] :=
  ⟨fun files css hne hg =>
    ⟨included_join files css hne hg, specHas_build files css hne hg⟩,
    fun _ => rfl, by decide⟩

/-- Witness for C8 at the requested set {"a/b"} and the query "a/x". -/
theorem filesFilter_included_characterization_w :
    included ["a/b"] (joinPath [['a'], ['x']])
        = some (specHas (buildMemo ["a/b"]) [['a'], ['x']]) ∧
      (specHas (buildMemo ["a/b"]) [['a'], ['x']] = true ↔
        ∃ k, 0 < k ∧ k ≤ 2 ∧ joinPath ([['a'], ['x']].take k)
          ∈ ["a/b"].map stripTrailingSlashes) :=
  filesFilter_included_characterization.1 ["a/b"] [['a'], ['x']]
    (by decide) (by decide)

end Tar
